import Mathlib

/-!
Verification of sixelping-client: address generation and the sender loop

A shallow embedding of `main.go`.

* `generateAddresses` (offset advance, `fmt.Sprintf` of the address string,
  resolution, construction of the snapshot),
* `openSocket` (the per-sender loop body: snapshot load, cursor clamp, send,
  counter increment, cursor advance),
* the rate monitor of `main` (`atomic.SwapUint64(&packetCount, 0)`).

Go `int` is modelled as `Int` (64-bit, wrap-around made explicit by `wrapInt`),
`uint32` and `uint64` as `Nat` reduced modulo `2 ^ 32` and `2 ^ 64`, `uint8`
as `Nat`. A `float64` that is the image of an integer is itself an integer, so
`float64(i)` is modelled as the integer it denotes (`float64OfInt`).
-/

namespace Sixelping

/-! ## Machine integers and `float64` conversion -/

/-- Two's-complement wrap of a mathematical integer into Go's 64-bit `int`. -/
def wrapInt (x : Int) : Int := (x + 2 ^ 63) % 2 ^ 64 - 2 ^ 63

/-- The number of low bits that do not fit in a 53-bit significand: the least `e`
with `m / 2 ^ e < 2 ^ 53` (at most 11 for the magnitude of a 64-bit integer). -/
def excessBits : Nat → Nat → Nat
  | 0, _ => 0
  | fuel + 1, m => if m < 2 ^ 53 then 0 else excessBits fuel (m / 2) + 1

/-- The value of `float64(m)` for the magnitude `m` of a 64-bit integer: `m`
rounded to 53 significant bits, ties to even (IEEE 754 binary64, the Go
conversion rule). -/
def float64OfNat (m : Nat) : Nat :=
  let e := excessBits 64 m
  let q := m / 2 ^ e
  let r := m % 2 ^ e
  let q1 := if 2 ^ e < 2 * r ∨ (2 * r = 2 ^ e ∧ q % 2 = 1) then q + 1 else q
  q1 * 2 ^ e

/-- The value of `float64(i)` for a Go `int`; rounding is symmetric in the sign. -/
def float64OfInt (i : Int) : Int :=
  if i < 0 then -((float64OfNat i.natAbs : Nat) : Int) else ((float64OfNat i.natAbs : Nat) : Int)

/-- The function `math.Min` on finite values (no NaN, no infinity, no negative zero
arises from integer conversions): `if x < y { return x }; return y`. -/
def mathMin (x y : Int) : Int := if x < y then x else y

/-- The conversion `int(f)` of an integer-valued `float64`: exact inside the
`int64` range, the amd64 "integer indefinite" value `-2^63` outside it. -/
def intOfFloat64 (f : Int) : Int :=
  if -(2 ^ 63) ≤ f ∧ f < 2 ^ 63 then f else -(2 ^ 63)

/-- The call `rand.Intn(n)`: panics (`none`) when `n <= 0`, otherwise returns some
value of `[0, n)`; `seed` selects which one. -/
def randIntn (seed : Nat) (n : Int) : Option Int :=
  if n ≤ 0 then none else some ((seed : Int) % n)

/-- The call `rand.Int()` of line 125: a non-negative 63-bit value. -/
def randInt (seed : Nat) : Int := ((seed % 2 ^ 63 : Nat) : Int)

/-! ## `openSocket`: the clamp step -/

/-- Line 140: `i = int(math.Min(float64(i), float64(llen)))`. -/
def clampMin (llen i : Int) : Int :=
  intOfFloat64 (mathMin (float64OfInt i) (float64OfInt llen))

/-- Line 142: the test `i > llen` evaluated right after line 140; `true` means
that `rand.Intn(llen)` is called. -/
def randBranchTaken (llen i : Int) : Bool := decide (llen < clampMin llen i)

/-- Lines 138-144 for a snapshot of length `len`:
`llen := len - 1; i = int(math.Min(..)); if i > llen { i -= rand.Intn(llen) }`.
`none` is the panic of `rand.Intn`. -/
def clampStep (seed : Nat) (len : Nat) (i : Int) : Option Int :=
  let llen : Int := (len : Int) - 1
  let i1 := clampMin llen i
  if llen < i1 then
    match randIntn seed llen with
    | none => none
    | some r => some (wrapInt (i1 - r))
  else some i1

/-! ## `openSocket`: the loop body -/

/-- A resolved `*net.IPAddr`: the eight 16-bit groups of the address. -/
abbrev Addr := List Nat

/-- The Go type `AddressList` (`[]*net.IPAddr`). -/
abbrev AddressList := List Addr

/-- The outcome of `c.WriteTo(iCMPPacket, m)`: no error, `syscall.ENOBUFS`, or
any other error. -/
inductive SendResult where
  | ok
  | enobufs
  | otherErr
deriving DecidableEq, Repr

/-- The state one sender works on: its local cursor `i` and the process-wide
`packetCount` (a `uint64`). -/
structure Sender where
  i : Int
  packetCount : Nat
deriving DecidableEq, Repr

/-- What one pass through the loop body did: it hit one of the two `continue`s
of lines 130 and 135 (no send), or it called `WriteTo` for `aList[index]`. -/
inductive Event where
  | skipped
  | sent (index : Int) (m : Addr) (res : SendResult)
deriving DecidableEq, Repr

/-- The lookup `aList[i]` of line 146; `none` is the index-out-of-range panic. -/
def indexList (aList : AddressList) (i : Int) : Option Addr :=
  if 0 ≤ i then aList[i.toNat]? else none

/-- One pass through the `for` loop of `openSocket` (lines 127-158).
`snapshot` is the result of `addressList.Load()` (`none` is the nil interface
before the first `Store`), `seed` drives `rand.Intn`, `writeTo` is the kernel's
answer to `WriteTo` for a destination. `none` is a panic. -/
def loopBody (snapshot : Option AddressList) (seed : Nat) (writeTo : Addr → SendResult)
    (s : Sender) : Option (Sender × Event) :=
  match snapshot with
  | none => some (s, Event.skipped)
  | some aList =>
    if aList.length = 0 then some (s, Event.skipped)
    else
      match clampStep seed aList.length s.i with
      | none => none
      | some i =>
        match indexList aList i with
        | none => none
        | some m =>
          match writeTo m with
          | SendResult.enobufs => some ({ s with i := i }, Event.sent i m SendResult.enobufs)
          | res =>
            some ({ i := wrapInt (i + 1), packetCount := (s.packetCount + 1) % 2 ^ 64 },
              Event.sent i m res)

/-- The environment of one loop pass. -/
structure Step where
  snapshot : Option AddressList
  seed : Nat
  writeTo : Addr → SendResult

/-- Consecutive loop passes; returns the final state and the events in order. -/
def runSender : List Step → Sender → Option (Sender × List Event)
  | [], s => some (s, [])
  | st :: rest, s =>
    match loopBody st.snapshot st.seed st.writeTo s with
    | none => none
    | some (s1, ev) =>
      match runSender rest s1 with
      | none => none
      | some (s2, evs) => some (s2, ev :: evs)

/-- The rate monitor of `main`: `count := atomic.SwapUint64(&packetCount, 0)`.
Returns the reported count and the state after the swap. -/
def monitorRead (s : Sender) : Nat × Sender := (s.packetCount, { s with packetCount := 0 })

/-- Whether an event is a send that returned no error. -/
def Event.isSuccess : Event → Bool
  | Event.sent _ _ SendResult.ok => true
  | _ => false

/-- Whether an event is a send that reached line 157 (any outcome but `ENOBUFS`). -/
def Event.isCounted : Event → Bool
  | Event.sent _ _ SendResult.enobufs => false
  | Event.sent _ _ _ => true
  | Event.skipped => false

/-- The index an event sent to, if it sent. -/
def Event.index? : Event → Option Int
  | Event.sent i _ _ => some i
  | Event.skipped => none

/-! ## `generateAddresses`: offsets -/

/-- Addition of two `uint32` values. -/
def addUint32 (a b : Nat) : Nat := (a + b) % 2 ^ 32

/-- The conversion `uint32(v)` of a Go `int`. -/
def toUint32 (v : Int) : Nat := (v % 2 ^ 32).toNat

/-- Lines 63-71: `oX, oY = oX+100, oY+0`, then each of the two is reset to `0`
when it exceeds `500`. -/
def advanceOffset (o : Nat × Nat) : Nat × Nat :=
  let oX := addUint32 o.1 100
  let oY := addUint32 o.2 0
  let oX := if 500 < oX then 0 else oX
  let oY := if 500 < oY then 0 else oY
  (oX, oY)

/-- The offset in force while the `n`-th snapshot is built: `var oX, oY uint32 = 0, 0`
followed by `n` passes through lines 63-71. -/
def offsetAt : Nat → Nat × Nat
  | 0 => (0, 0)
  | n + 1 => advanceOffset (offsetAt n)

/-! ## `generateAddresses`: formatting -/

/-- The type `Pixel`: an `image.Point` (`X`, `Y` of type `int`) and a
`color.RGBA` (four `uint8` channels). -/
structure Pixel where
  X : Int
  Y : Int
  R : Nat
  G : Nat
  B : Nat
  A : Nat
deriving DecidableEq, Repr

/-- The digit table `"0123456789abcdef"` used by `fmt` for `%d` and `%x`. -/
def digitChar (d : Nat) : Char :=
  match d with
  | 0 => '0' | 1 => '1' | 2 => '2' | 3 => '3' | 4 => '4' | 5 => '5' | 6 => '6' | 7 => '7'
  | 8 => '8' | 9 => '9' | 10 => 'a' | 11 => 'b' | 12 => 'c' | 13 => 'd' | 14 => 'e'
  | _ => 'f'

/-- The digit loop of `fmt` for an unsigned value: digits are produced from the
least significant one and written in front of what is already there. -/
def fmtDigits (base : Nat) : Nat → Nat → List Char → List Char
  | 0, _, acc => acc
  | fuel + 1, u, acc =>
    if u < base then digitChar u :: acc
    else fmtDigits base fuel (u / base) (digitChar (u % base) :: acc)

/-- The verbs `%d` (`base = 10`) and `%x` (`base = 16`) applied to an unsigned value. -/
def fmtUint (base u : Nat) : List Char := fmtDigits base (u + 1) u []

/-- The constant text in front of the first verb of the format string. -/
def addressHead : List Char := "2A06:1E81:F147:".data

/-- The call `fmt.Sprintf("2A06:1E81:F147:%d:%d:%x:%x:%x", a, b, r, g, bl)`. -/
def sprintfAddress (a b r g bl : Nat) : String :=
  String.mk (addressHead ++ fmtUint 10 a ++ ':' :: fmtUint 10 b ++ ':' :: fmtUint 16 r
    ++ ':' :: fmtUint 16 g ++ ':' :: fmtUint 16 bl)

/-- Lines 75-78: the address string of one pixel at offset `(oX, oY)`. -/
def address (pixel : Pixel) (oX oY : Nat) : String :=
  sprintfAddress (addUint32 (toUint32 pixel.X) oX) (addUint32 (toUint32 pixel.Y) oY)
    pixel.R pixel.G pixel.B

/-! ## `generateAddresses`: resolution and the snapshot -/

/-- The pieces of a text between its colons. -/
def splitColon : List Char → List (List Char)
  | [] => [[]]
  | c :: cs =>
    if c = ':' then [] :: splitColon cs
    else
      match splitColon cs with
      | [] => [[c]]
      | g :: gs => (c :: g) :: gs

/-- The value of a hexadecimal digit, in either case. -/
def hexVal (c : Char) : Option Nat :=
  if '0' ≤ c ∧ c ≤ '9' then some (c.toNat - 48)
  else if 'a' ≤ c ∧ c ≤ 'f' then some (c.toNat - 87)
  else if 'A' ≤ c ∧ c ≤ 'F' then some (c.toNat - 55)
  else none

/-- The value of a decimal digit. -/
def decVal (c : Char) : Option Nat :=
  if '0' ≤ c ∧ c ≤ '9' then some (c.toNat - 48) else none

/-- Reads a numeral, most significant digit first; `none` when a character is
not a digit. -/
def readDigits (base : Nat) (val : Char → Option Nat) : List Char → Nat → Option Nat
  | [], acc => some acc
  | c :: cs, acc =>
    match val c with
    | none => none
    | some d => readDigits base val cs (acc * base + d)

/-- One group of an IPv6 literal: one to four hexadecimal digits. -/
def parseGroup (g : List Char) : Option Nat :=
  if 1 ≤ g.length ∧ g.length ≤ 4 then readDigits 16 hexVal g 0 else none

/-- All groups of a literal, in order; `none` as soon as one is malformed. -/
def parseGroups : List (List Char) → Option (List Nat)
  | [] => some []
  | g :: gs =>
    match parseGroup g with
    | none => none
    | some v =>
      match parseGroups gs with
      | none => none
      | some vs => some (v :: vs)

/-- The IPv6 literals among the texts `address` can build (these never hold
`::`, a zone or a dotted quad): eight colon-separated groups of one to four
hexadecimal digits. Returns the eight group values. -/
def parseIPv6 (s : List Char) : Option Addr :=
  let gs := splitColon s
  if gs.length = 8 then parseGroups gs else none

/-- The call `net.ResolveIPAddr("ip", address)` of the Go standard library on
a text built by `address`: an IPv6 literal resolves to itself, and a text with
colons that is no literal is no host name either, so the call fails. -/
def resolveIPAddr (s : String) : Option Addr := parseIPv6 s.data

/-- Whether a text is a syntactically valid (uncompressed) IPv6 address. -/
def validIPv6 (s : String) : Bool := (parseIPv6 s.data).isSome

/-- The zero value of `*net.IPAddr` that `make` fills the slice with. -/
def nilAddr : Addr := []

/-- The loop of lines 74-86 from index `i` on: each pixel's address is built,
resolved (`none` is the `panic(err)` of line 82) and stored at `newAddresses[i]`. -/
def fillAddresses (oX oY : Nat) : List Pixel → Nat → AddressList → Option AddressList
  | [], _, newAddresses => some newAddresses
  | pixel :: rest, i, newAddresses =>
    match resolveIPAddr (address pixel oX oY) with
    | none => none
    | some addr => fillAddresses oX oY rest (i + 1) (newAddresses.set i addr)

/-- Lines 73-86: `newAddresses := make(AddressList, len(pixels))` and the loop
that fills it; the result is what line 88 publishes. -/
def buildSnapshot (pixels : List Pixel) (oX oY : Nat) : Option AddressList :=
  fillAddresses oX oY pixels 0 (List.replicate pixels.length nilAddr)

/-- The snapshot as the specification describes it: one resolved address per
pixel, in pixel order, all at the same offset; `none` when some pixel's address
does not resolve. Used only to state what `buildSnapshot` computes. -/
def resolveEach (oX oY : Nat) : List Pixel → Option AddressList
  | [] => some []
  | pixel :: rest =>
    match resolveIPAddr (address pixel oX oY) with
    | none => none
    | some addr =>
      match resolveEach oX oY rest with
      | none => none
      | some addrs => some (addr :: addrs)

/-- One generation cycle (lines 63-88) from the offset left by the previous
one: the new offset and the snapshot that is stored. -/
def generateCycle (pixels : List Pixel) (o : Nat × Nat) : Option ((Nat × Nat) × AddressList) :=
  let o1 := advanceOffset o
  match buildSnapshot pixels o1.1 o1.2 with
  | none => none
  | some snapshot => some (o1, snapshot)

end Sixelping

namespace Sixelping

/-! ## Lemmas on the `float64` round trip -/

theorem excessBits_of_lt (fuel m : Nat) (h : m < 2 ^ 53) : excessBits fuel m = 0 := by
  cases fuel with
  | zero => rfl
  | succ k => rw [excessBits, if_pos h]

theorem float64OfNat_of_lt (m : Nat) (h : m < 2 ^ 53) : float64OfNat m = m := by
  simp [float64OfNat, excessBits_of_lt 64 m h, Nat.mod_one]

theorem excessBits_div (fuel m : Nat) (h : 2 ^ 53 ≤ m) :
    2 ^ 53 ≤ m / 2 ^ (excessBits (fuel + 1) m - 1) := by
  induction fuel generalizing m with
  | zero =>
    have hm : ¬ m < 2 ^ 53 := Nat.not_lt.mpr h
    have h1 : excessBits (0 + 1) m = 1 := by
      rw [excessBits, if_neg hm]; rfl
    rw [h1]
    simpa using h
  | succ k ih =>
    have hm : ¬ m < 2 ^ 53 := Nat.not_lt.mpr h
    rw [excessBits, if_neg hm, Nat.add_sub_cancel]
    by_cases h2 : m / 2 < 2 ^ 53
    · rw [excessBits_of_lt _ _ h2]
      simpa using h
    · have h3 := ih (m / 2) (Nat.not_lt.mp h2)
      have hpos : 1 ≤ excessBits (k + 1) (m / 2) := by
        rw [excessBits, if_neg h2]
        exact Nat.le_add_left 1 _
      generalize excessBits (k + 1) (m / 2) = e at h3 hpos ⊢
      obtain ⟨j, rfl⟩ : ∃ j, e = j + 1 := ⟨e - 1, by omega⟩
      rw [Nat.add_sub_cancel] at h3
      have e2 : 2 ^ (j + 1) = 2 * 2 ^ j := Nat.pow_succ'
      rw [e2, ← Nat.div_div_eq_div_mul]
      exact h3

theorem excessBits_pos (fuel m : Nat) (h : 2 ^ 53 ≤ m) : 1 ≤ excessBits (fuel + 1) m := by
  have hm : ¬ m < 2 ^ 53 := Nat.not_lt.mpr h
  rw [excessBits, if_neg hm]
  exact Nat.le_add_left 1 _

theorem le_float64OfNat (m : Nat) (h : 2 ^ 53 ≤ m) : 2 ^ 53 ≤ float64OfNat m := by
  have hd := excessBits_div 63 m h
  have hp := excessBits_pos 63 m h
  simp only [float64OfNat]
  generalize excessBits (63 + 1) m = e at hd hp ⊢
  obtain ⟨k, rfl⟩ : ∃ k, e = k + 1 := ⟨e - 1, by omega⟩
  rw [Nat.add_sub_cancel] at hd
  have e2 : 2 ^ (k + 1) = 2 ^ k * 2 := pow_succ 2 k
  have hq : 2 ^ 52 ≤ m / 2 ^ (k + 1) := by
    rw [e2, ← Nat.div_div_eq_div_mul]
    omega
  have hk : 2 ≤ 2 ^ (k + 1) := by
    have : 1 ≤ 2 ^ k := Nat.one_le_two_pow
    omega
  have hq1 : 2 ^ 52 ≤
      (if 2 ^ (k + 1) < 2 * (m % 2 ^ (k + 1)) ∨
          (2 * (m % 2 ^ (k + 1)) = 2 ^ (k + 1) ∧ m / 2 ^ (k + 1) % 2 = 1)
        then m / 2 ^ (k + 1) + 1 else m / 2 ^ (k + 1)) := by
    split <;> omega
  calc 2 ^ 53 = 2 ^ 52 * 2 := by norm_num
    _ ≤ _ := Nat.mul_le_mul hq1 hk

theorem float64OfNat_pow53 : float64OfNat (2 ^ 53) = 2 ^ 53 := by decide

theorem float64OfNat_of_le (m : Nat) (h : m ≤ 2 ^ 53) : float64OfNat m = m := by
  rcases Nat.lt_or_ge m (2 ^ 53) with h1 | h1
  · exact float64OfNat_of_lt m h1
  · have : m = 2 ^ 53 := Nat.le_antisymm h h1
    rw [this]; exact float64OfNat_pow53

theorem float64OfInt_of_small (i : Int) (h1 : -(2 ^ 53) ≤ i) (h2 : i ≤ 2 ^ 53) :
    float64OfInt i = i := by
  have hn : i.natAbs ≤ 2 ^ 53 := by omega
  unfold float64OfInt
  rw [float64OfNat_of_le _ hn]
  split <;> omega

theorem le_float64OfInt (i : Int) (h : 2 ^ 53 ≤ i) : 2 ^ 53 ≤ float64OfInt i := by
  have hn : 2 ^ 53 ≤ i.natAbs := by omega
  have := le_float64OfNat _ hn
  unfold float64OfInt
  rw [if_neg (by omega)]
  exact_mod_cast this

theorem mathMin_le_right (x y : Int) : mathMin x y ≤ y := by
  unfold mathMin; split <;> omega

theorem intOfFloat64_le (f y : Int) (hf : f ≤ y) (hy : 0 ≤ y) : intOfFloat64 f ≤ y := by
  unfold intOfFloat64; split <;> omega

/-- After line 140 the cursor never exceeds `llen`, whatever it was. -/
theorem clampMin_le (llen i : Int) (h0 : 0 ≤ llen) (h1 : llen < 2 ^ 53) :
    clampMin llen i ≤ llen := by
  unfold clampMin
  apply intOfFloat64_le _ _ _ h0
  have := mathMin_le_right (float64OfInt i) (float64OfInt llen)
  rw [float64OfInt_of_small llen (by omega) (by omega)] at this ⊢
  exact this

/-- Line 140 computes the integer minimum when the cursor is not below `-2^53`. -/
theorem clampMin_eq_min (llen i : Int) (h0 : 0 ≤ llen) (h1 : llen < 2 ^ 53)
    (hi : -(2 ^ 53) ≤ i) : clampMin llen i = min i llen := by
  unfold clampMin
  rw [float64OfInt_of_small llen (by omega) (by omega)]
  rcases le_or_lt i llen with h | h
  · rw [float64OfInt_of_small i hi (by omega), min_eq_left h]
    unfold mathMin intOfFloat64
    split <;> split <;> omega
  · rw [min_eq_right (le_of_lt h)]
    have hf : llen ≤ float64OfInt i := by
      rcases le_or_lt i (2 ^ 53) with h2 | h2
      · rw [float64OfInt_of_small i hi h2]; omega
      · have := le_float64OfInt i (by omega); omega
    unfold mathMin intOfFloat64
    split <;> split <;> omega

theorem clampStep_eq_clampMin (seed len : Nat) (i : Int) (h0 : 1 ≤ len) (h1 : len ≤ 2 ^ 53) :
    clampStep seed len i = some (clampMin ((len : Int) - 1) i) := by
  have h := clampMin_le ((len : Int) - 1) i (by omega) (by omega)
  unfold clampStep
  simp only
  rw [if_neg (by omega)]

theorem clampStep_eq_min (seed len : Nat) (i : Int) (h0 : 1 ≤ len) (h1 : len ≤ 2 ^ 53)
    (hi : -(2 ^ 53) ≤ i) : clampStep seed len i = some (min i ((len : Int) - 1)) := by
  rw [clampStep_eq_clampMin seed len i h0 h1, clampMin_eq_min _ _ (by omega) (by omega) hi]

theorem wrapInt_of_range (x : Int) (h1 : -(2 ^ 63) ≤ x) (h2 : x < 2 ^ 63) : wrapInt x = x := by
  unfold wrapInt; omega

theorem indexList_of_range (aList : AddressList) (j : Int) (h0 : 0 ≤ j)
    (h1 : j < aList.length) : ∃ m, indexList aList j = some m := by
  unfold indexList
  rw [if_pos h0]
  have hlt : j.toNat < aList.length := by omega
  exact ⟨aList[j.toNat], List.getElem?_eq_getElem hlt⟩

/-- The loop body on a non-empty snapshot and a non-negative cursor: it sends to
index `min i (len - 1)`; on `ENOBUFS` only the cursor changes (to the clamped
index), otherwise the counter and the cursor are both incremented. -/
theorem loopBody_nonneg (aList : AddressList) (seed : Nat) (writeTo : Addr → SendResult)
    (s : Sender) (hne : 1 ≤ aList.length) (hlen : aList.length ≤ 2 ^ 53) (hi : 0 ≤ s.i) :
    ∃ m, indexList aList (min s.i ((aList.length : Int) - 1)) = some m ∧
      loopBody (some aList) seed writeTo s =
        some (if writeTo m = SendResult.enobufs then
            ({ s with i := min s.i ((aList.length : Int) - 1) },
              Event.sent (min s.i ((aList.length : Int) - 1)) m SendResult.enobufs)
          else
            ({ i := min s.i ((aList.length : Int) - 1) + 1,
               packetCount := (s.packetCount + 1) % 2 ^ 64 },
              Event.sent (min s.i ((aList.length : Int) - 1)) m (writeTo m))) := by
  obtain ⟨m, hm⟩ := indexList_of_range aList (min s.i ((aList.length : Int) - 1))
    (by omega) (by omega)
  refine ⟨m, hm, ?_⟩
  have hw : wrapInt (min s.i ((aList.length : Int) - 1) + 1)
      = min s.i ((aList.length : Int) - 1) + 1 := wrapInt_of_range _ (by omega) (by omega)
  unfold loopBody
  simp only
  rw [if_neg (by omega), clampStep_eq_min seed _ _ hne hlen (by omega)]
  simp only [hm]
  cases hres : writeTo m <;> simp [hw]

/-- The cursor stays non-negative and the loop body never panics: from a
non-negative cursor (it starts as `rand.Int()`, which is non-negative) every
pass returns, with a non-negative cursor again. -/
theorem loopBody_cursor_nonneg (snapshot : Option AddressList) (seed : Nat)
    (writeTo : Addr → SendResult) (s : Sender) (hi : 0 ≤ s.i)
    (hlen : ∀ aList, snapshot = some aList → aList.length ≤ 2 ^ 53) :
    ∃ s1 ev, loopBody snapshot seed writeTo s = some (s1, ev) ∧ 0 ≤ s1.i := by
  cases snapshot with
  | none => exact ⟨s, Event.skipped, rfl, hi⟩
  | some aList =>
    by_cases h0 : aList.length = 0
    · exact ⟨s, Event.skipped, by simp [loopBody, h0], hi⟩
    · obtain ⟨m, _, hb⟩ := loopBody_nonneg aList seed writeTo s (by omega)
        (hlen aList rfl) hi
      rw [hb]
      by_cases hw : writeTo m = SendResult.enobufs
      · rw [if_pos hw]
        exact ⟨_, _, rfl, by simp only; omega⟩
      · rw [if_neg hw]
        exact ⟨_, _, rfl, by simp only; omega⟩

/-- A sender started at `i := rand.Int()` never panics and its cursor is never
negative, whatever snapshots it loads and whatever its sends return. -/
theorem runSender_cursor_nonneg (steps : List Step) (s : Sender) (hi : 0 ≤ s.i)
    (hlen : ∀ st ∈ steps, ∀ aList, st.snapshot = some aList → aList.length ≤ 2 ^ 53) :
    ∃ s1 evs, runSender steps s = some (s1, evs) ∧ 0 ≤ s1.i := by
  induction steps generalizing s with
  | nil => exact ⟨s, [], rfl, hi⟩
  | cons st rest ih =>
    obtain ⟨s1, ev, h1, hi1⟩ := loopBody_cursor_nonneg st.snapshot st.seed st.writeTo s hi
      (hlen st (by simp))
    obtain ⟨s2, evs, h2, hi2⟩ := ih s1 hi1 (fun st1 hst1 => hlen st1 (List.mem_cons_of_mem _ hst1))
    exact ⟨s2, ev :: evs, by simp [runSender, h1, h2], hi2⟩

theorem randInt_nonneg (seed : Nat) : 0 ≤ randInt seed := by
  unfold randInt; omega

/-- Once the cursor has reached the last index it never leaves it: a pass whose
send is not refused with `ENOBUFS` sends to index `len - 1` and leaves the
cursor at `len`, from where the next pass does the same. -/
theorem loopBody_last_index (aList : AddressList) (seed : Nat) (writeTo : Addr → SendResult)
    (s : Sender) (hne : 1 ≤ aList.length) (hlen : aList.length ≤ 2 ^ 53)
    (hi : (aList.length : Int) - 1 ≤ s.i) (hw : ∀ m, writeTo m ≠ SendResult.enobufs) :
    ∃ m, loopBody (some aList) seed writeTo s =
      some ({ i := aList.length, packetCount := (s.packetCount + 1) % 2 ^ 64 },
        Event.sent ((aList.length : Int) - 1) m (writeTo m)) := by
  obtain ⟨m, _, hb⟩ := loopBody_nonneg aList seed writeTo s hne hlen (by omega)
  refine ⟨m, ?_⟩
  rw [hb, if_neg (hw m), min_eq_right hi]
  simp

/-- The counter after a run: every send that did not end in `ENOBUFS` was
counted, whether it succeeded or failed with another error. -/
theorem runSender_packetCount (steps : List Step) (s s1 : Sender) (evs : List Event)
    (h : runSender steps s = some (s1, evs)) :
    s1.packetCount % 2 ^ 64 = (s.packetCount + (evs.filter Event.isCounted).length) % 2 ^ 64 := by
  induction steps generalizing s s1 evs with
  | nil =>
    simp only [runSender, Option.some.injEq, Prod.mk.injEq] at h
    obtain ⟨rfl, rfl⟩ := h
    simp
  | cons st rest ih =>
    simp only [runSender] at h
    cases hb : loopBody st.snapshot st.seed st.writeTo s with
    | none => simp [hb] at h
    | some r =>
      obtain ⟨s2, ev⟩ := r
      simp only [hb] at h
      cases hr : runSender rest s2 with
      | none => simp [hr] at h
      | some r2 =>
        obtain ⟨s3, evs3⟩ := r2
        simp only [hr, Option.some.injEq, Prod.mk.injEq] at h
        obtain ⟨rfl, rfl⟩ := h
        have h3 := ih s2 s3 evs3 hr
        rw [h3]
        have h2 : s2.packetCount % 2 ^ 64
            = (s.packetCount + (if ev.isCounted then 1 else 0)) % 2 ^ 64 := by
          unfold loopBody at hb
          split at hb
          · simp only [Option.some.injEq, Prod.mk.injEq] at hb
            obtain ⟨rfl, rfl⟩ := hb
            simp [Event.isCounted]
          · split at hb
            · simp only [Option.some.injEq, Prod.mk.injEq] at hb
              obtain ⟨rfl, rfl⟩ := hb
              simp [Event.isCounted]
            · split at hb
              · simp at hb
              · split at hb
                · simp at hb
                · split at hb
                  · simp only [Option.some.injEq, Prod.mk.injEq] at hb
                    obtain ⟨rfl, rfl⟩ := hb
                    simp [Event.isCounted]
                  · rename_i res hres
                    simp only [Option.some.injEq, Prod.mk.injEq] at hb
                    obtain ⟨rfl, rfl⟩ := hb
                    cases res <;> simp_all [Event.isCounted]
        rw [List.filter_cons]
        cases hc : ev.isCounted with
        | true =>
          simp only [hc, if_true, List.length_cons] at h2 ⊢
          omega
        | false =>
          simp only [hc, Bool.false_eq_true, if_false] at h2 ⊢
          omega

theorem float64OfNat_pos (m : Nat) (h : 1 ≤ m) : 1 ≤ float64OfNat m := by
  rcases Nat.lt_or_ge m (2 ^ 53) with h1 | h1
  · rw [float64OfNat_of_lt m h1]; exact h
  · have := le_float64OfNat m h1
    omega

/-- Line 140 keeps a negative cursor negative. -/
theorem clampMin_neg (llen i : Int) (h0 : 0 ≤ llen) (h1 : llen < 2 ^ 53) (hi : i < 0) :
    clampMin llen i < 0 := by
  have hf : float64OfInt i ≤ -1 := by
    have := float64OfNat_pos i.natAbs (by omega)
    unfold float64OfInt
    rw [if_pos hi]
    omega
  unfold clampMin
  rw [float64OfInt_of_small llen (by omega) (by omega)]
  unfold mathMin intOfFloat64
  split <;> split <;> omega

/-- A pass that reaches the send started from a non-negative cursor, and the
index it sends to is the integer minimum of that cursor and the last index. -/
theorem loopBody_sent_index (aList : AddressList) (seed : Nat) (writeTo : Addr → SendResult)
    (s s1 : Sender) (j : Int) (m : Addr) (res : SendResult) (hlen : aList.length ≤ 2 ^ 53)
    (h : loopBody (some aList) seed writeTo s = some (s1, Event.sent j m res)) :
    1 ≤ aList.length ∧ 0 ≤ s.i ∧ clampStep seed aList.length s.i = some j ∧
      j = min s.i ((aList.length : Int) - 1) ∧ indexList aList j = some m ∧
      res = writeTo m := by
  have hne : 1 ≤ aList.length := by
    by_contra hc
    have h0 : aList.length = 0 := by omega
    simp [loopBody, h0] at h
  have hcl := clampStep_eq_clampMin seed aList.length s.i hne hlen
  have key : j = clampMin ((aList.length : Int) - 1) s.i ∧ indexList aList j = some m ∧
      res = writeTo m := by
    unfold loopBody at h
    simp only at h
    rw [if_neg (by omega), hcl] at h
    simp only at h
    split at h
    · simp at h
    · rename_i m1 hm1
      split at h
      · rename_i hw
        simp only [Option.some.injEq, Prod.mk.injEq, Event.sent.injEq] at h
        obtain ⟨_, h2, h3, h4⟩ := h
        subst h2 h3 h4
        exact ⟨rfl, hm1, hw.symm⟩
      · simp only [Option.some.injEq, Prod.mk.injEq, Event.sent.injEq] at h
        obtain ⟨_, h2, h3, h4⟩ := h
        subst h2 h3 h4
        exact ⟨rfl, hm1, rfl⟩
  obtain ⟨hj, hm, hres⟩ := key
  have hj0 : 0 ≤ j := by
    unfold indexList at hm
    split at hm
    · assumption
    · simp at hm
  have hi : 0 ≤ s.i := by
    by_contra hc
    have := clampMin_neg ((aList.length : Int) - 1) s.i (by omega) (by omega) (by omega)
    omega
  have hmin := clampMin_eq_min ((aList.length : Int) - 1) s.i (by omega) (by omega) (by omega)
  refine ⟨hne, hi, ?_, ?_, hm, hres⟩
  · rw [hcl, hj]
  · rw [hj, hmin]

/-! ## The sender: cursor clamp, skipped passes, `ENOBUFS`, counter -/

/-- C1: for every non-empty snapshot and every non-negative prior cursor value,
the clamp step of `openSocket` returns (without calling `rand.Intn`, so without
panic) an index `j` with `0 ≤ j ≤ len - 1`, and the lookup `aList[j]` that
follows is in bounds. Non-negative is every value the cursor holds: a sender
that starts at `i := rand.Int()` and has run any passes whatever (any
snapshots, any send results) has a non-negative cursor, and the clamp step on
that cursor yields an index in bounds. -/
theorem clamp_index_in_bounds (aList : AddressList) (seed : Nat) (i : Int)
    (hne : 1 ≤ aList.length) (hlen : aList.length ≤ 2 ^ 53) (hi : 0 ≤ i) :
    (∃ j m, clampStep seed aList.length i = some j ∧ 0 ≤ j ∧ j ≤ (aList.length : Int) - 1 ∧
      indexList aList j = some m) ∧
    ∀ (steps : List Step) (seed0 count0 : Nat),
      (∀ st ∈ steps, ∀ l, st.snapshot = some l → l.length ≤ 2 ^ 53) →
      ∃ s evs, runSender steps { i := randInt seed0, packetCount := count0 } = some (s, evs) ∧
        0 ≤ s.i ∧
        ∃ j m, clampStep seed aList.length s.i = some j ∧ 0 ≤ j ∧
          j ≤ (aList.length : Int) - 1 ∧ indexList aList j = some m := by
  have main : ∀ k : Int, 0 ≤ k →
      ∃ j m, clampStep seed aList.length k = some j ∧ 0 ≤ j ∧ j ≤ (aList.length : Int) - 1 ∧
        indexList aList j = some m := by
    intro k hk
    obtain ⟨m, hm⟩ := indexList_of_range aList (min k ((aList.length : Int) - 1))
      (by omega) (by omega)
    exact ⟨_, m, clampStep_eq_min seed _ k hne hlen (by omega), by omega, by omega, hm⟩
  refine ⟨main i hi, ?_⟩
  intro steps seed0 count0 hsteps
  obtain ⟨s, evs, hrun, hs⟩ := runSender_cursor_nonneg steps
    { i := randInt seed0, packetCount := count0 } (randInt_nonneg seed0) hsteps
  exact ⟨s, evs, hrun, hs, main s.i hs⟩

/-- C1 at a two-entry snapshot and cursor `7`. -/
theorem clamp_index_in_bounds_witness :
    (1 ≤ ([[1], [2]] : AddressList).length ∧ ([[1], [2]] : AddressList).length ≤ 2 ^ 53 ∧
      (0 : Int) ≤ 7) ∧
    ∃ j m, clampStep 0 ([[1], [2]] : AddressList).length 7 = some j ∧ 0 ≤ j ∧
      j ≤ (([[1], [2]] : AddressList).length : Int) - 1 ∧
      indexList [[1], [2]] j = some m :=
  ⟨by decide, (clamp_index_in_bounds [[1], [2]] 0 7 (by decide) (by decide) (by decide)).1⟩

/-- Outside the sender's states: a negative cursor, which no sender holds, would
pass the clamp step unchanged. -/
theorem clampStep_negative_cursor :
    clampStep 0 1 (-1) = some (-1) ∧ indexList [[0]] (-1) = none := by
  decide

/-- C9: for every snapshot length `len ≥ 1` and every cursor value, the test
`i > llen` after line 140 is false, so `rand.Intn` is not called (not even with
argument `0` when `len = 1`), the clamp step does not panic and does not depend
on the random source; and the clamp step returns the integer minimum of the
cursor and `len - 1`, for every cursor value from `-2^53` on and so for every
value the cursor holds: a sender that starts at `i := rand.Int()` and has run
any passes whatever has a cursor on which the branch is not taken and the clamp
step is that minimum. -/
theorem rand_branch_dead (seed len : Nat) (i : Int) (h0 : 1 ≤ len) (h1 : len ≤ 2 ^ 53) :
    randBranchTaken ((len : Int) - 1) i = false ∧
      clampStep seed len i = some (clampMin ((len : Int) - 1) i) ∧
      (∀ seed1, clampStep seed1 len i = clampStep seed len i) ∧
      (-(2 ^ 53) ≤ i → clampStep seed len i = some (min i ((len : Int) - 1))) ∧
      ∀ (steps : List Step) (seed0 count0 : Nat),
        (∀ st ∈ steps, ∀ l, st.snapshot = some l → l.length ≤ 2 ^ 53) →
        ∃ s evs, runSender steps { i := randInt seed0, packetCount := count0 } = some (s, evs) ∧
          randBranchTaken ((len : Int) - 1) s.i = false ∧
          clampStep seed len s.i = some (min s.i ((len : Int) - 1)) := by
  have hdead : ∀ k : Int, randBranchTaken ((len : Int) - 1) k = false := by
    intro k
    have h := clampMin_le ((len : Int) - 1) k (by omega) (by omega)
    unfold randBranchTaken
    exact decide_eq_false (by omega)
  refine ⟨hdead i, clampStep_eq_clampMin seed len i h0 h1, ?_, ?_, ?_⟩
  · intro seed1
    rw [clampStep_eq_clampMin seed1 len i h0 h1, clampStep_eq_clampMin seed len i h0 h1]
  · intro hi
    exact clampStep_eq_min seed len i h0 h1 hi
  · intro steps seed0 count0 hsteps
    obtain ⟨s, evs, hrun, hs⟩ := runSender_cursor_nonneg steps
      { i := randInt seed0, packetCount := count0 } (randInt_nonneg seed0) hsteps
    exact ⟨s, evs, hrun, hdead s.i, clampStep_eq_min seed len s.i h0 h1 (by omega)⟩

/-- C9 at length `1` (where `rand.Intn(0)` would panic) and cursor `5`. -/
theorem rand_branch_dead_witness :
    (1 ≤ 1 ∧ 1 ≤ 2 ^ 53) ∧ randIntn 0 0 = none ∧
    randBranchTaken (((1 : Nat) : Int) - 1) 5 = false ∧
    clampStep 0 1 5 = some (clampMin (((1 : Nat) : Int) - 1) 5) ∧
    (∀ seed1, clampStep seed1 1 5 = clampStep 0 1 5) ∧
    (-(2 ^ 53) ≤ (5 : Int) → clampStep 0 1 5 = some (min 5 (((1 : Nat) : Int) - 1))) :=
  have h := rand_branch_dead 0 1 5 (by decide) (by decide)
  ⟨by decide, by decide, h.1, h.2.1, h.2.2.1, h.2.2.2.1⟩

/-- Outside the sender's states: a cursor below `-2^53`, which no sender holds,
would be rounded by the `float64` round trip of line 140. -/
theorem clampStep_rounds_below_range :
    clampStep 0 1 (-9007199254740993) = some (-9007199254740992) := by
  decide

/-- C6: a pass that loads no snapshot (`nil`) or an empty one performs no send
and leaves the cursor and the packet counter as they were. -/
theorem empty_snapshot_no_send (seed : Nat) (writeTo : Addr → SendResult) (s : Sender) :
    loopBody none seed writeTo s = some (s, Event.skipped) ∧
      loopBody (some []) seed writeTo s = some (s, Event.skipped) :=
  ⟨rfl, rfl⟩

/-- C7: when a pass over a non-empty snapshot sends and the send fails with
`ENOBUFS`, the index `j` that was tried is the clamp of the prior cursor, that
is the minimum of the prior cursor and the last index; the packet counter is
unchanged and the cursor is `j`, so an in-range cursor is exactly where it was
and no cursor is advanced past `j`; the next pass over the same snapshot sends
to the same index `j` again. Such a pass exists for every non-negative cursor:
with a send that fails with `ENOBUFS` the pass returns exactly this state. -/
theorem enobufs_keeps_counter_and_cursor (aList : AddressList) (seed : Nat)
    (writeTo : Addr → SendResult) (s s1 : Sender) (j : Int) (m : Addr)
    (hlen : aList.length ≤ 2 ^ 53)
    (h : loopBody (some aList) seed writeTo s = some (s1, Event.sent j m SendResult.enobufs)) :
    s1.packetCount = s.packetCount ∧ s1.i = j ∧ indexList aList j = some m ∧
      (∀ seed1 writeTo1, ∃ s2,
        loopBody (some aList) seed1 writeTo1 s1 = some (s2, Event.sent j m (writeTo1 m))) ∧
      clampStep seed aList.length s.i = some j ∧
      j = min s.i ((aList.length : Int) - 1) ∧
      s1 = { s with i := min s.i ((aList.length : Int) - 1) } ∧
      (s.i ≤ (aList.length : Int) - 1 → s1 = s) ∧
      writeTo m = SendResult.enobufs ∧
      ∀ (s0 : Sender) (seed0 : Nat), 0 ≤ s0.i →
        ∃ m0, indexList aList (min s0.i ((aList.length : Int) - 1)) = some m0 ∧
          loopBody (some aList) seed0 (fun _ => SendResult.enobufs) s0
            = some ({ s0 with i := min s0.i ((aList.length : Int) - 1) },
                Event.sent (min s0.i ((aList.length : Int) - 1)) m0 SendResult.enobufs) := by
  obtain ⟨hne, hs0, hcl, hj, hm, hres⟩ :=
    loopBody_sent_index aList seed writeTo s s1 j m SendResult.enobufs hlen h
  obtain ⟨m1, hm1, hb⟩ := loopBody_nonneg aList seed writeTo s hne hlen hs0
  rw [← hj] at hm1 hb
  have hmm : m1 = m := by rw [hm] at hm1; exact (Option.some.inj hm1).symm
  subst hmm
  rw [if_pos hres.symm] at hb
  rw [hb] at h
  simp only [Option.some.injEq, Prod.mk.injEq, and_true] at h
  have hs1 : s1 = { s with i := j } := h.symm
  have hc : s1.packetCount = s.packetCount := by rw [hs1]
  have hi : s1.i = j := by rw [hs1]
  refine ⟨hc, hi, hm, ?_, hcl, hj, ?_, ?_, hres.symm, ?_⟩
  · intro seed1 writeTo1
    have hjr : 0 ≤ j ∧ j ≤ (aList.length : Int) - 1 := by omega
    obtain ⟨m2, hm2, hb2⟩ := loopBody_nonneg aList seed1 writeTo1 s1 hne hlen (by omega)
    have hmin : min s1.i ((aList.length : Int) - 1) = j := by omega
    rw [hmin] at hm2 hb2
    have : m2 = m1 := by rw [hm] at hm2; exact (Option.some.inj hm2).symm
    subst this
    rw [hb2]
    by_cases hw : writeTo1 m2 = SendResult.enobufs
    · rw [if_pos hw, hw]; exact ⟨_, rfl⟩
    · rw [if_neg hw]; exact ⟨_, rfl⟩
  · rw [hs1, hj]
  · intro hle
    rw [hs1, hj, min_eq_left hle]
  · intro s0 seed0 h0
    obtain ⟨m0, hm0, hb0⟩ :=
      loopBody_nonneg aList seed0 (fun _ => SendResult.enobufs) s0 hne hlen h0
    refine ⟨m0, hm0, ?_⟩
    rw [hb0, if_pos rfl]

/-- C7 at a two-entry snapshot, counter `3`, cursor `5` (clamped to `1`). -/
theorem enobufs_keeps_counter_and_cursor_witness :
    loopBody (some [[1], [2]]) 0 (fun _ => SendResult.enobufs) { i := 5, packetCount := 3 }
        = some ({ i := 1, packetCount := 3 }, Event.sent 1 [2] SendResult.enobufs) ∧
    clampStep 0 ([[1], [2]] : AddressList).length 5 = some 1 ∧
    (1 : Int) = min 5 ((([[1], [2]] : AddressList).length : Int) - 1) ∧
    ∀ seed1 writeTo1, ∃ s2,
      loopBody (some [[1], [2]]) seed1 writeTo1 { i := 1, packetCount := 3 }
        = some (s2, Event.sent 1 [2] (writeTo1 [2])) :=
  have h := enobufs_keeps_counter_and_cursor [[1], [2]] 0 (fun _ => SendResult.enobufs)
    { i := 5, packetCount := 3 } { i := 1, packetCount := 3 } 1 [2] (by decide) (by decide)
  ⟨by decide, h.2.2.2.2.1, h.2.2.2.2.2.1, h.2.2.2.1⟩

/-- C5 at a three-entry snapshot with every send succeeding: from cursor `0` the
sender visits the indices `0, 1, 2` once and then stays on the last index `2`
(the cursor is `3` after each of these passes and is clamped back to `2`). -/
theorem cursor_stays_on_last_index :
    (runSender (List.replicate 7 ⟨some [[10], [11], [12]], 0, fun _ => SendResult.ok⟩)
        { i := 0, packetCount := 0 }).map (fun r => (r.1.i, r.2.map Event.index?))
      = some (3, [some 0, some 1, some 2, some 2, some 2, some 2, some 2]) := by
  decide

/-- C4 at a single pass whose send fails with an error other than `ENOBUFS`:
no send succeeded, yet the counter is incremented and the monitor reports `1`. -/
theorem counter_counts_failed_send :
    (runSender [⟨some [[1]], 0, fun _ => SendResult.otherErr⟩]
        { i := 0, packetCount := 0 }).map
        (fun r => ((r.2.filter Event.isSuccess).length, monitorRead r.1))
      = some (0, (1, { i := 1, packetCount := 0 })) := by
  decide

/-! ## Lemmas on offsets and formatting -/

theorem offsetAt_eq (n : Nat) : offsetAt n = ((100 * n) % 600, 0) := by
  induction n with
  | zero => rfl
  | succ k ih =>
    have e : ∀ m, 100 * m % 600 = 100 * (m % 6) := fun m => Nat.mul_mod_mul_left 100 m 6
    rw [offsetAt, ih, e, e]
    have hr : k % 6 < 6 := Nat.mod_lt _ (by decide)
    have hmod : (100 * (k % 6) + 100) % 2 ^ 32 = 100 * (k % 6) + 100 :=
      Nat.mod_eq_of_lt (by omega)
    simp only [advanceOffset, addUint32, hmod]
    refine Prod.ext ?_ ?_
    · simp only
      split <;> omega
    · simp

theorem digitChar_ne_colon (d : Nat) : digitChar d ≠ ':' := by
  unfold digitChar
  split <;> decide

theorem hexVal_digitChar_isSome (d : Nat) : (hexVal (digitChar d)).isSome = true := by
  unfold digitChar
  split <;> decide

theorem hexVal_digitChar (d : Nat) (h : d < 16) : hexVal (digitChar d) = some d := by
  interval_cases d <;> decide

theorem decVal_digitChar (d : Nat) (h : d < 10) : decVal (digitChar d) = some d := by
  interval_cases d <;> decide

/-- The digits are written in front of what is already in the buffer. -/
theorem fmtDigits_append (base fuel u : Nat) (acc : List Char) :
    fmtDigits base fuel u acc = fmtDigits base fuel u [] ++ acc := by
  induction fuel generalizing u acc with
  | zero => rfl
  | succ k ih =>
    by_cases hu : u < base
    · simp [fmtDigits, hu]
    · simp only [fmtDigits, hu, if_false]
      rw [ih (u / base) (digitChar (u % base) :: acc), ih (u / base) [digitChar (u % base)]]
      simp

/-- Every character written comes from the digit table. -/
theorem fmtDigits_chars (base fuel u : Nat) :
    ∀ c ∈ fmtDigits base fuel u [], ∃ d, c = digitChar d := by
  induction fuel generalizing u with
  | zero => simp [fmtDigits]
  | succ k ih =>
    intro c hc
    by_cases hu : u < base
    · exact ⟨u, by simpa [fmtDigits, hu] using hc⟩
    · simp only [fmtDigits, hu, if_false] at hc
      rw [fmtDigits_append] at hc
      rcases List.mem_append.mp hc with hc1 | hc1
      · exact ih (u / base) c hc1
      · exact ⟨u % base, by simpa using hc1⟩

theorem fmtUint_no_colon (base u : Nat) : ':' ∉ fmtUint base u := by
  intro h
  obtain ⟨d, hd⟩ := fmtDigits_chars base (u + 1) u _ h
  exact digitChar_ne_colon d hd.symm

theorem fmtUint_hex_chars (base u : Nat) :
    ∀ c ∈ fmtUint base u, (hexVal c).isSome = true := by
  intro c h
  obtain ⟨d, hd⟩ := fmtDigits_chars base (u + 1) u c h
  rw [hd]
  exact hexVal_digitChar_isSome d

theorem fmtDigits_length_pos (base fuel u : Nat) :
    1 ≤ (fmtDigits base (fuel + 1) u []).length := by
  by_cases hu : u < base
  · simp [fmtDigits, hu]
  · simp only [fmtDigits, hu, if_false]
    rw [fmtDigits_append]
    simp

/-- A value below `base ^ k` is written with at most `k` digits. -/
theorem fmtDigits_length_le (base : Nat) (hb : 2 ≤ base) (fuel u k : Nat) (hk : 1 ≤ k)
    (hu : u < base ^ k) : (fmtDigits base fuel u []).length ≤ k := by
  induction fuel generalizing u k with
  | zero => simp [fmtDigits]
  | succ f ih =>
    by_cases h : u < base
    · simp only [fmtDigits, h, if_true, List.length_singleton]
      exact hk
    · simp only [fmtDigits, h, if_false]
      rw [fmtDigits_append]
      obtain ⟨j, rfl⟩ : ∃ j, k = j + 1 := ⟨k - 1, by omega⟩
      have hj : 1 ≤ j := by
        rcases Nat.eq_zero_or_pos j with h0 | h0
        · subst h0
          simp only [zero_add, pow_one] at hu
          exact (h hu).elim
        · exact h0
      have hdiv : u / base < base ^ j := by
        rw [Nat.div_lt_iff_lt_mul (by omega)]
        rw [pow_succ] at hu
        exact hu
      have := ih (u / base) j hj hdiv
      simp only [List.length_append, List.length_singleton]
      omega

/-- A value of at least `base ^ k` is written with more than `k` digits. -/
theorem fmtDigits_length_gt (base : Nat) (hb : 2 ≤ base) (fuel u k : Nat) (hf : u < fuel)
    (hu : base ^ k ≤ u) : k + 1 ≤ (fmtDigits base fuel u []).length := by
  induction fuel generalizing u k with
  | zero => omega
  | succ f ih =>
    cases k with
    | zero => exact fmtDigits_length_pos base f u
    | succ j =>
      have h : ¬ u < base := by
        have h1 : base ^ 1 ≤ base ^ (j + 1) := Nat.pow_le_pow_right (by omega) (by omega)
        rw [pow_one] at h1
        omega
      simp only [fmtDigits, h, if_false]
      rw [fmtDigits_append]
      have hdiv : base ^ j ≤ u / base := by
        rw [Nat.le_div_iff_mul_le (by omega)]
        rw [pow_succ] at hu
        exact hu
      have hlt : u / base < f := by
        have : u / base < u := Nat.div_lt_self (by omega) (by omega)
        omega
      have := ih (u / base) j hlt hdiv
      simp only [List.length_append, List.length_singleton]
      omega

theorem readDigits_append (base : Nat) (val : Char → Option Nat) (xs ys : List Char)
    (a : Nat) :
    readDigits base val (xs ++ ys) a
      = (readDigits base val xs a).bind (readDigits base val ys) := by
  induction xs generalizing a with
  | nil => rfl
  | cons c cs ih =>
    simp only [List.cons_append, readDigits]
    cases val c with
    | none => rfl
    | some d => exact ih (a * base + d)

/-- Reading back what `fmtDigits` wrote gives the value that was written. -/
theorem readDigits_fmtDigits (base : Nat) (hb : 2 ≤ base) (val : Char → Option Nat)
    (hval : ∀ d, d < base → val (digitChar d) = some d) (fuel u a : Nat) (hf : u < fuel) :
    readDigits base val (fmtDigits base fuel u []) a
      = some (a * base ^ (fmtDigits base fuel u []).length + u) := by
  induction fuel generalizing u a with
  | zero => omega
  | succ f ih =>
    by_cases h : u < base
    · simp [fmtDigits, h, readDigits, hval u h]
    · simp only [fmtDigits, h, if_false]
      rw [fmtDigits_append, readDigits_append]
      have hlt : u / base < f := by
        have : u / base < u := Nat.div_lt_self (by omega) (by omega)
        omega
      rw [ih (u / base) a hlt]
      have hm : u % base < base := Nat.mod_lt _ (by omega)
      simp only [Option.bind, readDigits, hval _ hm, List.length_append, List.length_singleton,
        Option.some.injEq]
      have hu := Nat.div_add_mod u base
      generalize (fmtDigits base f (u / base) []).length = n
      calc (a * base ^ n + u / base) * base + u % base
          = a * base ^ (n + 1) + (base * (u / base) + u % base) := by ring
        _ = a * base ^ (n + 1) + u := by rw [hu]

theorem readDigits_fmtUint_dec (u : Nat) : readDigits 10 decVal (fmtUint 10 u) 0 = some u := by
  unfold fmtUint
  rw [readDigits_fmtDigits 10 (by decide) decVal decVal_digitChar (u + 1) u 0 (by omega)]
  simp

theorem readDigits_fmtUint_hex (u : Nat) : readDigits 16 hexVal (fmtUint 16 u) 0 = some u := by
  unfold fmtUint
  rw [readDigits_fmtDigits 16 (by decide) hexVal hexVal_digitChar (u + 1) u 0 (by omega)]
  simp

/-! ## Lemmas on splitting and parsing -/

theorem splitColon_of_no_colon (g : List Char) (h : ':' ∉ g) : splitColon g = [g] := by
  induction g with
  | nil => rfl
  | cons c cs ih =>
    have hc : c ≠ ':' := fun e => h (by simp [e])
    have hcs : ':' ∉ cs := fun e => h (List.mem_cons_of_mem _ e)
    simp [splitColon, hc, ih hcs]

theorem splitColon_append (g rest : List Char) (h : ':' ∉ g) :
    splitColon (g ++ ':' :: rest) = g :: splitColon rest := by
  induction g with
  | nil => simp [splitColon]
  | cons c cs ih =>
    have hc : c ≠ ':' := fun e => h (by simp [e])
    have hcs : ':' ∉ cs := fun e => h (List.mem_cons_of_mem _ e)
    simp [splitColon, hc, ih hcs]

theorem readDigits_isSome (g : List Char) (a : Nat)
    (h : ∀ c ∈ g, (hexVal c).isSome = true) : (readDigits 16 hexVal g a).isSome = true := by
  induction g generalizing a with
  | nil => rfl
  | cons c cs ih =>
    have hc := h c (by simp)
    obtain ⟨d, hd⟩ := Option.isSome_iff_exists.mp hc
    simp only [readDigits, hd]
    exact ih _ (fun c1 hc1 => h c1 (List.mem_cons_of_mem _ hc1))

theorem parseGroup_isSome (g : List Char) (h1 : 1 ≤ g.length) (h4 : g.length ≤ 4)
    (h : ∀ c ∈ g, (hexVal c).isSome = true) : (parseGroup g).isSome = true := by
  unfold parseGroup
  rw [if_pos ⟨h1, h4⟩]
  exact readDigits_isSome g 0 h

theorem parseGroup_of_long (g : List Char) (h : 5 ≤ g.length) : parseGroup g = none := by
  unfold parseGroup
  rw [if_neg (by omega)]

theorem parseGroups_isSome (gs : List (List Char))
    (h : ∀ g ∈ gs, (parseGroup g).isSome = true) : (parseGroups gs).isSome = true := by
  induction gs with
  | nil => rfl
  | cons g rest ih =>
    obtain ⟨v, hv⟩ := Option.isSome_iff_exists.mp (h g (by simp))
    obtain ⟨vs, hvs⟩ := Option.isSome_iff_exists.mp
      (ih (fun g1 hg1 => h g1 (List.mem_cons_of_mem _ hg1)))
    simp [parseGroups, hv, hvs]

theorem parseGroups_of_bad (gs : List (List Char)) (g : List Char) (hg : g ∈ gs)
    (h : parseGroup g = none) : parseGroups gs = none := by
  induction gs with
  | nil => simp at hg
  | cons g1 rest ih =>
    rcases List.mem_cons.mp hg with e | e
    · subst e
      simp [parseGroups, h]
    · simp only [parseGroups]
      cases parseGroup g1 with
      | none => rfl
      | some v => simp [ih e]

/-- The text of an address, cut at its colons. -/
theorem splitColon_sprintfAddress (a b r g bl : Nat) :
    splitColon (sprintfAddress a b r g bl).data
      = ["2A06".data, "1E81".data, "F147".data, fmtUint 10 a, fmtUint 10 b, fmtUint 16 r,
          fmtUint 16 g, fmtUint 16 bl] := by
  have hp : addressHead = "2A06".data ++ ':' :: ("1E81".data ++ ':' :: ("F147".data ++ [':']))
    := by decide
  have e : (sprintfAddress a b r g bl).data
      = "2A06".data ++ ':' :: ("1E81".data ++ ':' :: ("F147".data ++ ':' :: (fmtUint 10 a
          ++ ':' :: (fmtUint 10 b ++ ':' :: (fmtUint 16 r ++ ':' :: (fmtUint 16 g
          ++ ':' :: fmtUint 16 bl)))))) := by
    simp only [sprintfAddress, hp, List.append_assoc, List.cons_append, List.nil_append]
  rw [e, splitColon_append _ _ (by decide), splitColon_append _ _ (by decide),
    splitColon_append _ _ (by decide), splitColon_append _ _ (fmtUint_no_colon _ _),
    splitColon_append _ _ (fmtUint_no_colon _ _), splitColon_append _ _ (fmtUint_no_colon _ _),
    splitColon_append _ _ (fmtUint_no_colon _ _), splitColon_of_no_colon _ (fmtUint_no_colon _ _)]

/-! ## Lemmas on the snapshot -/

theorem take_succ_set (l : AddressList) (i : Nat) (a : Addr) (h : i < l.length) :
    (l.set i a).take (i + 1) = l.take i ++ [a] := by
  induction l generalizing i with
  | nil => simp at h
  | cons x xs ih =>
    cases i with
    | zero => simp
    | succ k =>
      have hk : k < xs.length := by simpa using h
      simp [ih k hk]

/-- The index-by-index fill of the pre-sized slice leaves the first `i` entries
alone and writes the resolved addresses of the remaining pixels after them. -/
theorem fillAddresses_eq (oX oY : Nat) (pixels : List Pixel) (i : Nat) (acc : AddressList)
    (h : acc.length = i + pixels.length) :
    fillAddresses oX oY pixels i acc
      = (resolveEach oX oY pixels).map (fun addrs => acc.take i ++ addrs) := by
  induction pixels generalizing i acc with
  | nil =>
    have : acc.take i = acc := List.take_of_length_le (by simp at h; omega)
    simp [fillAddresses, resolveEach, this]
  | cons p ps ih =>
    simp only [fillAddresses, resolveEach]
    cases hr : resolveIPAddr (address p oX oY) with
    | none => rfl
    | some a =>
      simp only
      have hlen : (acc.set i a).length = (i + 1) + ps.length := by
        simp only [List.length_set, h, List.length_cons]; omega
      rw [ih (i + 1) (acc.set i a) hlen]
      have hi : i < acc.length := by simp only [h, List.length_cons]; omega
      rw [take_succ_set acc i a hi]
      cases resolveEach oX oY ps with
      | none => rfl
      | some addrs => simp

theorem buildSnapshot_eq (pixels : List Pixel) (oX oY : Nat) :
    buildSnapshot pixels oX oY = resolveEach oX oY pixels := by
  unfold buildSnapshot
  rw [fillAddresses_eq oX oY pixels 0 _ (by simp)]
  cases resolveEach oX oY pixels <;> simp

theorem resolveEach_getElem (oX oY : Nat) (pixels : List Pixel) (addrs : AddressList)
    (h : resolveEach oX oY pixels = some addrs) :
    addrs.length = pixels.length ∧
      ∀ i (hi : i < pixels.length), addrs[i]? = resolveIPAddr (address pixels[i] oX oY) := by
  induction pixels generalizing addrs with
  | nil =>
    simp only [resolveEach, Option.some.injEq] at h
    subst h
    exact ⟨rfl, fun i hi => by simp at hi⟩
  | cons p ps ih =>
    simp only [resolveEach] at h
    cases hr : resolveIPAddr (address p oX oY) with
    | none => simp [hr] at h
    | some a =>
      cases hs : resolveEach oX oY ps with
      | none => simp [hr, hs] at h
      | some rest =>
        simp only [hr, hs, Option.some.injEq] at h
        subst h
        obtain ⟨h1, h2⟩ := ih rest hs
        refine ⟨by simp [h1], ?_⟩
        intro i hi
        cases i with
        | zero => simp [hr]
        | succ k =>
          have hk : k < ps.length := by simpa using hi
          simpa using h2 k hk

theorem resolveEach_perm (oX oY : Nat) (pixels permuted : List Pixel)
    (hperm : List.Perm pixels permuted) (addrs : AddressList)
    (h : resolveEach oX oY pixels = some addrs) :
    ∃ addrs2, resolveEach oX oY permuted = some addrs2 ∧ List.Perm addrs addrs2 := by
  induction hperm generalizing addrs with
  | nil => exact ⟨addrs, h, List.Perm.refl _⟩
  | @cons x l1 l2 _ ih =>
    simp only [resolveEach] at h ⊢
    cases hr : resolveIPAddr (address x oX oY) with
    | none => simp [hr] at h
    | some a =>
      cases hs : resolveEach oX oY l1 with
      | none => simp [hr, hs] at h
      | some rest =>
        simp only [hr, hs, Option.some.injEq] at h
        subst h
        obtain ⟨rest2, h2, hp⟩ := ih rest hs
        exact ⟨a :: rest2, by simp [h2], List.Perm.cons a hp⟩
  | swap x y l =>
    simp only [resolveEach] at h ⊢
    cases hx : resolveIPAddr (address x oX oY) with
    | none =>
      cases hy : resolveIPAddr (address y oX oY) <;> simp [hx, hy] at h
    | some a =>
      cases hy : resolveIPAddr (address y oX oY) with
      | none => simp [hy] at h
      | some b =>
        cases hs : resolveEach oX oY l with
        | none => simp [hx, hy, hs] at h
        | some rest =>
          simp only [hx, hy, hs, Option.some.injEq] at h
          subst h
          exact ⟨a :: b :: rest, rfl, List.Perm.swap a b rest⟩
  | trans _ _ ih1 ih2 =>
    obtain ⟨mid, hm, hp1⟩ := ih1 addrs h
    obtain ⟨addrs2, h2, hp2⟩ := ih2 mid hm
    exact ⟨addrs2, h2, hp1.trans hp2⟩

theorem resolveEach_isSome (oX oY : Nat) (pixels : List Pixel)
    (h : ∀ p ∈ pixels, (resolveIPAddr (address p oX oY)).isSome = true) :
    (resolveEach oX oY pixels).isSome = true := by
  induction pixels with
  | nil => rfl
  | cons p ps ih =>
    obtain ⟨a, ha⟩ := Option.isSome_iff_exists.mp (h p (by simp))
    obtain ⟨rest, hrest⟩ := Option.isSome_iff_exists.mp
      (ih (fun q hq => h q (List.mem_cons_of_mem _ hq)))
    simp [resolveEach, ha, hrest]

/-- Every group of the text built from values that fit (coordinates below
`10^4`, colours below `16^4`) has one to four hexadecimal digits. -/
theorem sprintfAddress_groups (a b r g bl : Nat) (ha : a < 10 ^ 4) (hb : b < 10 ^ 4)
    (hr : r < 16 ^ 4) (hg : g < 16 ^ 4) (hbl : bl < 16 ^ 4) :
    ∀ grp ∈ splitColon (sprintfAddress a b r g bl).data,
      1 ≤ grp.length ∧ grp.length ≤ 4 ∧ ∀ c ∈ grp, (hexVal c).isSome = true := by
  rw [splitColon_sprintfAddress]
  have hd : ∀ u, u < 10 ^ 4 → 1 ≤ (fmtUint 10 u).length ∧ (fmtUint 10 u).length ≤ 4 ∧
      ∀ c ∈ fmtUint 10 u, (hexVal c).isSome = true := fun u hu =>
    ⟨fmtDigits_length_pos 10 u u, fmtDigits_length_le 10 (by decide) (u + 1) u 4 (by decide) hu,
      fmtUint_hex_chars 10 u⟩
  have hh : ∀ u, u < 16 ^ 4 → 1 ≤ (fmtUint 16 u).length ∧ (fmtUint 16 u).length ≤ 4 ∧
      ∀ c ∈ fmtUint 16 u, (hexVal c).isSome = true := fun u hu =>
    ⟨fmtDigits_length_pos 16 u u, fmtDigits_length_le 16 (by decide) (u + 1) u 4 (by decide) hu,
      fmtUint_hex_chars 16 u⟩
  intro grp hgrp
  simp only [List.mem_cons, List.mem_singleton, List.not_mem_nil, or_false] at hgrp
  rcases hgrp with e | e | e | e | e | e | e | e <;> subst e
  · decide
  · decide
  · decide
  · exact hd a ha
  · exact hd b hb
  · exact hh r hr
  · exact hh g hg
  · exact hh bl hbl

theorem sprintfAddress_valid (a b r g bl : Nat) (ha : a < 10 ^ 4) (hb : b < 10 ^ 4)
    (hr : r < 16 ^ 4) (hg : g < 16 ^ 4) (hbl : bl < 16 ^ 4) :
    (parseIPv6 (sprintfAddress a b r g bl).data).isSome = true := by
  have hgroups := sprintfAddress_groups a b r g bl ha hb hr hg hbl
  have hlen : (splitColon (sprintfAddress a b r g bl).data).length = 8 := by
    rw [splitColon_sprintfAddress]; rfl
  unfold parseIPv6
  simp only [hlen, if_true]
  apply parseGroups_isSome
  intro grp hgrp
  obtain ⟨h1, h4, hc⟩ := hgroups grp hgrp
  exact parseGroup_isSome grp h1 h4 hc

theorem sprintfAddress_invalid (a b r g bl : Nat) (hb : 10 ^ 4 ≤ b) :
    5 ≤ (fmtUint 10 b).length ∧ parseIPv6 (sprintfAddress a b r g bl).data = none := by
  have h5 : 5 ≤ (fmtUint 10 b).length :=
    fmtDigits_length_gt 10 (by decide) (b + 1) b 4 (by omega) hb
  refine ⟨h5, ?_⟩
  unfold parseIPv6
  simp only
  split
  · apply parseGroups_of_bad _ (fmtUint 10 b)
    · rw [splitColon_sprintfAddress]; simp
    · exact parseGroup_of_long _ h5
  · rfl

theorem offsetAt_bounds (n : Nat) : (offsetAt n).1 ≤ 500 ∧ (offsetAt n).1 % 100 = 0 ∧
    (offsetAt n).2 = 0 := by
  have e : 100 * n % 600 = 100 * (n % 6) := Nat.mul_mod_mul_left 100 n 6
  have hr : n % 6 < 6 := Nat.mod_lt _ (by decide)
  rw [offsetAt_eq, e]
  exact ⟨by show 100 * (n % 6) ≤ 500; omega, Nat.mul_mod_right 100 (n % 6), rfl⟩

theorem toUint32_of_range (v : Int) (h0 : 0 ≤ v) (h1 : v < 2 ^ 32) :
    ((toUint32 v : Nat) : Int) = v := by
  unfold toUint32
  rw [Int.emod_eq_of_lt h0 h1]
  exact Int.toNat_of_nonneg h0

theorem address_valid_in_range (n : Nat) (pixel : Pixel) (hx0 : 0 ≤ pixel.X)
    (hx : pixel.X ≤ 499) (hy0 : 0 ≤ pixel.Y) (hy : pixel.Y ≤ 9999) (hr : pixel.R < 256)
    (hg : pixel.G < 256) (hb : pixel.B < 256) :
    (addUint32 (toUint32 pixel.X) (offsetAt n).1 < 10 ^ 4 ∧
      addUint32 (toUint32 pixel.Y) (offsetAt n).2 < 10 ^ 4) ∧
    (resolveIPAddr (address pixel (offsetAt n).1 (offsetAt n).2)).isSome = true := by
  have h1 := (offsetAt_bounds n).1
  have h3 := (offsetAt_bounds n).2.2
  have hX := toUint32_of_range pixel.X hx0 (by omega)
  have hY := toUint32_of_range pixel.Y hy0 (by omega)
  have ha : addUint32 (toUint32 pixel.X) (offsetAt n).1 < 10 ^ 4 := by
    unfold addUint32; omega
  have hb2 : addUint32 (toUint32 pixel.Y) (offsetAt n).2 < 10 ^ 4 := by
    rw [h3]; unfold addUint32; omega
  refine ⟨⟨ha, hb2⟩, ?_⟩
  unfold resolveIPAddr address
  exact sprintfAddress_valid _ _ _ _ _ ha hb2 (by omega) (by omega) (by omega)

/-! ## The generator: offsets, address text, snapshot -/

/-- C3: the offset starts at `(0, 0)`; each cycle adds `100` to `oX` and resets
it to `0` when that exceeds `500`, and leaves `oY` alone; so the offset of the
`n`-th snapshot is `((100 * n) mod 600, 0)`, `oX` is a multiple of `100` in
`[0, 500]`, `oY` is `0`, and neither `uint32` addition of the next cycle wraps.
The snapshot of cycle `n + 1` is built at `offsetAt (n + 1)`. -/
theorem offset_advance (n : Nat) :
    offsetAt 0 = (0, 0) ∧
    offsetAt (n + 1)
      = ((if 500 < (offsetAt n).1 + 100 then 0 else (offsetAt n).1 + 100), (offsetAt n).2) ∧
    offsetAt n = ((100 * n) % 600, 0) ∧
    (offsetAt n).1 % 100 = 0 ∧ (offsetAt n).1 ≤ 500 ∧ (offsetAt n).2 = 0 ∧
    (offsetAt n).1 + 100 < 2 ^ 32 ∧ (offsetAt n).2 + 0 < 2 ^ 32 ∧
    ∀ pixels : List Pixel, generateCycle pixels (offsetAt n)
      = (buildSnapshot pixels (offsetAt (n + 1)).1 (offsetAt (n + 1)).2).map
          (fun snapshot => (offsetAt (n + 1), snapshot)) := by
  obtain ⟨h1, h2, h3⟩ := offsetAt_bounds n
  refine ⟨rfl, ?_, offsetAt_eq n, h2, h1, h3, by omega, by omega, ?_⟩
  · have hx : ((offsetAt n).1 + 100) % 2 ^ 32 = (offsetAt n).1 + 100 :=
      Nat.mod_eq_of_lt (by omega)
    show advanceOffset (offsetAt n) = _
    simp only [advanceOffset, addUint32, hx, h3]
    rfl
  · intro pixels
    show generateCycle pixels (offsetAt n)
      = (buildSnapshot pixels (advanceOffset (offsetAt n)).1 (advanceOffset (offsetAt n)).2).map
          (fun snapshot => (advanceOffset (offsetAt n), snapshot))
    unfold generateCycle
    simp only
    cases buildSnapshot pixels (advanceOffset (offsetAt n)).1 (advanceOffset (offsetAt n)).2 <;> rfl

/-- C2: the address text of a pixel at offset `(oX, oY)` is `2A06:1E81:F147:`
followed by five groups joined by `:`, which are the decimal numerals of the
`uint32` sums `x + oX` and `y + oY` and the hexadecimal numerals of `R`, `G`,
`B`; alpha plays no part. The two pixels of the 2x1 image give
`2A06:1E81:F147:0:0:1:2:3` and `2A06:1E81:F147:1:0:4:5:6` at offset `(0, 0)`, and
X groups `100` and `101` after one advance of the offset. -/
theorem address_construction (pixel : Pixel) (oX oY : Nat) :
    (address pixel oX oY).data
      = "2A06:1E81:F147:".data ++ List.intercalate [':']
          [fmtUint 10 (addUint32 (toUint32 pixel.X) oX),
           fmtUint 10 (addUint32 (toUint32 pixel.Y) oY),
           fmtUint 16 pixel.R, fmtUint 16 pixel.G, fmtUint 16 pixel.B] ∧
    splitColon (address pixel oX oY).data
      = ["2A06".data, "1E81".data, "F147".data,
          fmtUint 10 (addUint32 (toUint32 pixel.X) oX),
          fmtUint 10 (addUint32 (toUint32 pixel.Y) oY),
          fmtUint 16 pixel.R, fmtUint 16 pixel.G, fmtUint 16 pixel.B] ∧
    readDigits 10 decVal (fmtUint 10 (addUint32 (toUint32 pixel.X) oX)) 0
      = some (addUint32 (toUint32 pixel.X) oX) ∧
    readDigits 10 decVal (fmtUint 10 (addUint32 (toUint32 pixel.Y) oY)) 0
      = some (addUint32 (toUint32 pixel.Y) oY) ∧
    readDigits 16 hexVal (fmtUint 16 pixel.R) 0 = some pixel.R ∧
    readDigits 16 hexVal (fmtUint 16 pixel.G) 0 = some pixel.G ∧
    readDigits 16 hexVal (fmtUint 16 pixel.B) 0 = some pixel.B ∧
    ((addUint32 (toUint32 pixel.X) oX : Nat) : Int) = (pixel.X + oX) % 2 ^ 32 ∧
    ((addUint32 (toUint32 pixel.Y) oY : Nat) : Int) = (pixel.Y + oY) % 2 ^ 32 ∧
    (∀ alpha, address { pixel with A := alpha } oX oY = address pixel oX oY) ∧
    address { X := 0, Y := 0, R := 1, G := 2, B := 3, A := pixel.A } 0 0
      = "2A06:1E81:F147:0:0:1:2:3" ∧
    address { X := 1, Y := 0, R := 4, G := 5, B := 6, A := pixel.A } 0 0
      = "2A06:1E81:F147:1:0:4:5:6" ∧
    advanceOffset (0, 0) = (100, 0) ∧
    address { X := 0, Y := 0, R := 1, G := 2, B := 3, A := pixel.A } 100 0
      = "2A06:1E81:F147:100:0:1:2:3" ∧
    address { X := 1, Y := 0, R := 4, G := 5, B := 6, A := pixel.A } 100 0
      = "2A06:1E81:F147:101:0:4:5:6" := by
  have halpha : ∀ (x y : Int) (r g b alpha o : Nat),
      address { X := x, Y := y, R := r, G := g, B := b, A := alpha } o 0
        = address { X := x, Y := y, R := r, G := g, B := b, A := 0 } o 0 :=
    fun _ _ _ _ _ _ _ => rfl
  have hsum : ∀ (v : Int) (o : Nat),
      ((addUint32 (toUint32 v) o : Nat) : Int) = (v + o) % 2 ^ 32 := by
    intro v o
    unfold addUint32 toUint32
    have h0 : 0 ≤ v % 2 ^ 32 := Int.emod_nonneg _ (by norm_num)
    have h1 := Int.toNat_of_nonneg h0
    push_cast
    omega
  refine ⟨?_, splitColon_sprintfAddress _ _ _ _ _, readDigits_fmtUint_dec _,
    readDigits_fmtUint_dec _, readDigits_fmtUint_hex _, readDigits_fmtUint_hex _,
    readDigits_fmtUint_hex _, hsum _ _, hsum _ _, fun _ => rfl,
    Eq.trans (halpha 0 0 1 2 3 pixel.A 0) (by decide),
    Eq.trans (halpha 1 0 4 5 6 pixel.A 0) (by decide), by decide,
    Eq.trans (halpha 0 0 1 2 3 pixel.A 100) (by decide),
    Eq.trans (halpha 1 0 4 5 6 pixel.A 100) (by decide)⟩
  simp [address, sprintfAddress, addressHead, List.intercalate, List.intersperse]

/-- C8: the snapshot built in one cycle has one entry per pixel, entry `i` being
the resolved address of pixel `i` at the cycle's offset, so it is determined by
the pixel sequence and the offset; for a permutation of the pixels the build
succeeds as well and yields the same permutation of the snapshot (entry `i` of
the new snapshot is entry `σ i` of the old one whenever pixel `i` of the new
sequence is pixel `σ i` of the old one), with the same set of addresses. -/
theorem snapshot_pointwise_and_permutation (pixels permuted : List Pixel) (oX oY : Nat)
    (snapshot : AddressList) (hperm : List.Perm pixels permuted)
    (h : buildSnapshot pixels oX oY = some snapshot) :
    snapshot.length = pixels.length ∧
    (∀ i (hi : i < pixels.length), snapshot[i]? = resolveIPAddr (address pixels[i] oX oY)) ∧
    (∀ snapshot1, buildSnapshot pixels oX oY = some snapshot1 → snapshot1 = snapshot) ∧
    ∃ snapshot2, buildSnapshot permuted oX oY = some snapshot2 ∧
      List.Perm snapshot snapshot2 ∧ (∀ a, a ∈ snapshot ↔ a ∈ snapshot2) ∧
      ∀ σ : Nat → Nat, (∀ i, i < permuted.length → permuted[i]? = pixels[σ i]?) →
        ∀ i, i < permuted.length → snapshot2[i]? = snapshot[σ i]? := by
  have h1 := h
  rw [buildSnapshot_eq] at h1
  obtain ⟨hlen, hget⟩ := resolveEach_getElem oX oY pixels snapshot h1
  obtain ⟨snapshot2, h2, hp⟩ := resolveEach_perm oX oY pixels permuted hperm snapshot h1
  obtain ⟨_, hget2⟩ := resolveEach_getElem oX oY permuted snapshot2 h2
  refine ⟨hlen, hget, ?_, snapshot2, ?_, hp, fun a => hp.mem_iff, ?_⟩
  · intro snapshot1 hs
    rw [h] at hs
    exact (Option.some.inj hs).symm
  · rw [buildSnapshot_eq]; exact h2
  · intro σ hσ i hi
    have e := hσ i hi
    rw [List.getElem?_eq_getElem hi] at e
    obtain ⟨hj, hpix⟩ := List.getElem?_eq_some.mp e.symm
    rw [hget2 i hi, hget (σ i) hj, hpix]

/-- C8 at the two pixels of the 2x1 image and their swap. -/
theorem snapshot_pointwise_and_permutation_witness :
    buildSnapshot [⟨0, 0, 1, 2, 3, 255⟩, ⟨1, 0, 4, 5, 6, 255⟩] 0 0
      = some [[0x2A06, 0x1E81, 0xF147, 0, 0, 1, 2, 3], [0x2A06, 0x1E81, 0xF147, 1, 0, 4, 5, 6]] ∧
    ∃ snapshot2, buildSnapshot [⟨1, 0, 4, 5, 6, 255⟩, ⟨0, 0, 1, 2, 3, 255⟩] 0 0 = some snapshot2 ∧
      List.Perm [[0x2A06, 0x1E81, 0xF147, 0, 0, 1, 2, 3], [0x2A06, 0x1E81, 0xF147, 1, 0, 4, 5, 6]]
        snapshot2 :=
  ⟨by decide,
    let ⟨snapshot2, h2, hp, _⟩ :=
      (snapshot_pointwise_and_permutation [⟨0, 0, 1, 2, 3, 255⟩, ⟨1, 0, 4, 5, 6, 255⟩]
        [⟨1, 0, 4, 5, 6, 255⟩, ⟨0, 0, 1, 2, 3, 255⟩] 0 0
        [[0x2A06, 0x1E81, 0xF147, 0, 0, 1, 2, 3], [0x2A06, 0x1E81, 0xF147, 1, 0, 4, 5, 6]]
        (List.Perm.swap _ _ []) (by decide)).2.2.2
    ⟨snapshot2, h2, hp⟩⟩

/-- C10: the coordinate groups are decimal numerals and the colour groups
hexadecimal ones; for a pixel with `0 ≤ x ≤ 499`, `0 ≤ y ≤ 9999` and 8-bit
colours, at the offset of any cycle, the address text has exactly eight
colon-separated groups of one to four hexadecimal digits, is a valid IPv6
address and resolves, so a cycle over such pixels never reaches the panic; for
a pixel whose y group value `y + oY` is `10000` or more that group has five or
more digits and the text is not a valid IPv6 address. -/
theorem address_valid_on_sized_image (n : Nat) (pixel : Pixel) (pixels : List Pixel)
    (tall : Pixel) (oX oY : Nat)
    (hx0 : 0 ≤ pixel.X) (hx : pixel.X ≤ 499) (hy0 : 0 ≤ pixel.Y) (hy : pixel.Y ≤ 9999)
    (hr : pixel.R < 256) (hg : pixel.G < 256) (hb : pixel.B < 256)
    (hall : ∀ p ∈ pixels, 0 ≤ p.X ∧ p.X ≤ 499 ∧ 0 ≤ p.Y ∧ p.Y ≤ 9999 ∧ p.R < 256 ∧ p.G < 256 ∧
      p.B < 256)
    (htall : 10000 ≤ addUint32 (toUint32 tall.Y) oY) :
    splitColon (address pixel (offsetAt n).1 (offsetAt n).2).data
      = ["2A06".data, "1E81".data, "F147".data,
          fmtUint 10 (addUint32 (toUint32 pixel.X) (offsetAt n).1),
          fmtUint 10 (addUint32 (toUint32 pixel.Y) (offsetAt n).2),
          fmtUint 16 pixel.R, fmtUint 16 pixel.G, fmtUint 16 pixel.B] ∧
    (splitColon (address pixel (offsetAt n).1 (offsetAt n).2).data).length = 8 ∧
    (∀ grp ∈ splitColon (address pixel (offsetAt n).1 (offsetAt n).2).data,
      1 ≤ grp.length ∧ grp.length ≤ 4 ∧ ∀ c ∈ grp, (hexVal c).isSome = true) ∧
    validIPv6 (address pixel (offsetAt n).1 (offsetAt n).2) = true ∧
    (resolveIPAddr (address pixel (offsetAt n).1 (offsetAt n).2)).isSome = true ∧
    (buildSnapshot pixels (offsetAt n).1 (offsetAt n).2).isSome = true ∧
    5 ≤ (fmtUint 10 (addUint32 (toUint32 tall.Y) oY)).length ∧
    validIPv6 (address tall oX oY) = false ∧
    resolveIPAddr (address tall oX oY) = none ∧
    buildSnapshot (tall :: pixels) oX oY = none := by
  obtain ⟨⟨ha, hb2⟩, hres⟩ := address_valid_in_range n pixel hx0 hx hy0 hy hr hg hb
  have hsplit := splitColon_sprintfAddress (addUint32 (toUint32 pixel.X) (offsetAt n).1)
    (addUint32 (toUint32 pixel.Y) (offsetAt n).2) pixel.R pixel.G pixel.B
  obtain ⟨h5, hbad⟩ := sprintfAddress_invalid (addUint32 (toUint32 tall.X) oX)
    (addUint32 (toUint32 tall.Y) oY) tall.R tall.G tall.B htall
  have hnone : resolveIPAddr (address tall oX oY) = none := hbad
  refine ⟨hsplit, ?_, ?_, hres, hres, ?_, h5, ?_, hnone, ?_⟩
  · show (splitColon (sprintfAddress _ _ _ _ _).data).length = 8
    rw [hsplit]; rfl
  · exact sprintfAddress_groups _ _ _ _ _ ha hb2 (by omega) (by omega) (by omega)
  · rw [buildSnapshot_eq]
    apply resolveEach_isSome
    intro p hp
    obtain ⟨p1, p2, p3, p4, p5, p6, p7⟩ := hall p hp
    exact (address_valid_in_range n p p1 p2 p3 p4 p5 p6 p7).2
  · show (parseIPv6 (address tall oX oY).data).isSome = false
    have : parseIPv6 (address tall oX oY).data = none := hbad
    rw [this]; rfl
  · rw [buildSnapshot_eq]
    simp [resolveEach, hnone]

/-- C10 at the largest pixel in range in cycle 5 (offset `(500, 0)`), the 2x1
image, and a pixel with `y = 10000`. -/
theorem address_valid_on_sized_image_witness :
    address ⟨499, 9999, 255, 255, 255, 255⟩ (offsetAt 5).1 (offsetAt 5).2
      = "2A06:1E81:F147:999:9999:ff:ff:ff" ∧
    validIPv6 (address ⟨499, 9999, 255, 255, 255, 255⟩ (offsetAt 5).1 (offsetAt 5).2) = true ∧
    (buildSnapshot [⟨0, 0, 1, 2, 3, 255⟩, ⟨1, 0, 4, 5, 6, 255⟩] (offsetAt 5).1
      (offsetAt 5).2).isSome = true ∧
    address ⟨0, 10000, 0, 0, 0, 255⟩ 0 0 = "2A06:1E81:F147:0:10000:0:0:0" ∧
    validIPv6 (address ⟨0, 10000, 0, 0, 0, 255⟩ 0 0) = false :=
  have h := address_valid_on_sized_image 5 ⟨499, 9999, 255, 255, 255, 255⟩
    [⟨0, 0, 1, 2, 3, 255⟩, ⟨1, 0, 4, 5, 6, 255⟩] ⟨0, 10000, 0, 0, 0, 255⟩ 0 0
    (by decide) (by decide) (by decide) (by decide) (by decide) (by decide) (by decide)
    (by decide) (by decide)
  ⟨by decide, h.2.2.2.1, h.2.2.2.2.2.1, by decide, h.2.2.2.2.2.2.2.1⟩

end Sixelping
